import Mathlib

/-!
Model of `src/rlone_copy.py` (and of the quota selector that
`src/rclone_sync.py` shares verbatim).

Paths and remote destinations are Lean `String`s; Python `str.replace`
and `str.startswith` are modelled character-exactly.  Python dicts (the
mapping-rule table, the wait-cleanup ledger, the scanner result — all
iterated in insertion order) are insertion-ordered association lists.
Timestamps are integers (the code only compares and subtracts them).
Folder sizes (floating-point GB values, `du` bytes divided by `1024³`)
are modelled as elements of an arbitrary linearly ordered additive
commutative monoid: the selector only ever adds sizes and compares the
total against the budget, so every statement is proved uniformly in that
type.  The external `rclone copy` / `rclone check` calls and the
filesystem queries are oracles passed in as functions.  Folder paths
produced by the scanner are already absolute, so `os.path.abspath` is
the identity here.
-/

/-- Python `str.replace` on character lists, with explicit fuel (one unit
of fuel per scanning step; `fuel = s.length` always suffices).  Every
non-overlapping occurrence of `old` is replaced, scanning left to right —
Python replaces all occurrences, not only the leading one.  The pattern
is assumed non-empty (every `mapping_rules` key is a non-empty path); an
empty pattern is treated as matching nowhere. -/
def replaceAllFuel (old new : List Char) : Nat → List Char → List Char
  | 0, s => s
  | _ + 1, [] => []
  | fuel + 1, c :: cs =>
    if old ≠ [] ∧ old.isPrefixOf (c :: cs) then
      new ++ replaceAllFuel old new fuel ((c :: cs).drop old.length)
    else
      c :: replaceAllFuel old new fuel cs

/-- Python `s.replace(old, new)` (all occurrences replaced). -/
def pyReplace (s old new : String) : String :=
  ⟨replaceAllFuel old.data new.data s.data.length s.data⟩

/-- Python `s.startswith(p)`. -/
def strStartsWith (s p : String) : Bool :=
  p.data.isPrefixOf s.data

/-- Python substring containment `old in s`, on character lists. -/
def containsSub (old : List Char) : List Char → Bool
  | [] => old.isPrefixOf []
  | c :: cs => old.isPrefixOf (c :: cs) || containsSub old cs

/-- A Python `dict` with string keys: an insertion-ordered association
list.  The source maintains pairwise-distinct keys (dict invariant). -/
abbrev Dict (α : Type) : Type := List (String × α)

/-- The key list of a dict, in iteration order. -/
def dictKeys {α : Type} (d : Dict α) : List String :=
  d.map Prod.fst

/-- Python `d[k] = v`: update in place if the key exists, else append. -/
def dictInsert {α : Type} : Dict α → String → α → Dict α
  | [], k, v => [(k, v)]
  | (k', v') :: rest, k, v =>
    if k' = k then (k, v) :: rest else (k', v') :: dictInsert rest k v

/-- Python `del d[k]`: keys are unique, so removing the first binding. -/
def dictErase {α : Type} : Dict α → String → Dict α
  | [], _ => []
  | (k', v') :: rest, k =>
    if k' = k then rest else (k', v') :: dictErase rest k

/-- Python `d.get(k)` / `d[k]` as an option. -/
def dictLookup {α : Type} : Dict α → String → Option α
  | [], _ => none
  | (k', v') :: rest, k => if k' = k then some v' else dictLookup rest k

/-- The wait-cleanup ledger: absolute folder path ↦ upload timestamp. -/
abbrev Ledger : Type := Dict Int

/-- `rlone_copy.py` lines 116–117 and 184–185: the first mapping rule (in
declaration order) whose `base_path` is a string prefix of the folder. -/
def resolveRule : List (String × String) → String → Option (String × String)
  | [], _ => none
  | (base, suffix) :: rest, folder =>
    if strStartsWith folder base then some (base, suffix) else resolveRule rest folder

/-- Lines 120 and 187: `folder.replace(base_path, f"{drive}:{remote_suffix}")`. -/
def destinationFor (folder base drive suffix : String) : String :=
  pyReplace folder base (drive ++ ":" ++ suffix)

/-- Modelled from the spec: `destinationFor` as §4.1 words it — substitute
the leading `localRoot` occurrence of the path by the replacement and
leave the rest of the path unchanged.  Used only to compare against the
source's all-occurrence `str.replace`. -/
def specLeadingSubst (folder base repl : String) : String :=
  repl ++ ⟨folder.data.drop base.data.length⟩

/-- Loop of `select_folders_for_upload` (identical in both source files):
greedy prefix scan accumulating sizes, breaking at the first candidate
that would exceed the budget. -/
def selectGo {α : Type} [AddCommMonoid α] [LinearOrder α] (max_size : α) :
    Dict α → α → List String
  | [], _ => []
  | (folder, size) :: rest, total =>
    if total + size ≤ max_size then folder :: selectGo max_size rest (total + size)
    else []

/-- `select_folders_for_upload(folders, max_size)` from both source files. -/
def select_folders_for_upload {α : Type} [AddCommMonoid α] [LinearOrder α]
    (folders : Dict α) (max_size : α) : List String :=
  selectGo max_size folders 0

/-- Cumulative size of a candidate list. -/
def cumSize {α : Type} [AddCommMonoid α] (l : Dict α) : α :=
  (l.map Prod.snd).sum

instance {ε α : Type} [DecidableEq ε] [DecidableEq α] : DecidableEq (Except ε α) := fun a b =>
  match a, b with
  | .error e, .error f =>
    if h : e = f then .isTrue (by subst h; rfl)
    else .isFalse (by intro hh; injection hh; contradiction)
  | .error _, .ok _ => .isFalse (by intro hh; injection hh)
  | .ok _, .error _ => .isFalse (by intro hh; injection hh)
  | .ok x, .ok y =>
    if h : x = y then .isTrue (by subst h; rfl)
    else .isFalse (by intro hh; injection hh; contradiction)

/-- The filesystem as the scanner sees it: existence of a mapped root,
its immediate subdirectory names (the `os.path.isdir` filter is already
applied), creation times, and `get_folder_size` results. -/
structure FSModel (α : Type) where
  present : String → Bool
  subdirs : String → List String
  ctime : String → Int
  size : String → α

/-- One root of `scan_folders_by_mapping` (lines 62–79): list the
subdirectories of an existing `base_path`, sort them by creation time
ascending, then record each absolute path not in the ledger together
with its size. -/
def scanOneRoot {α : Type} (fs : FSModel α) (ignored : List String) (base : String)
    (acc : Dict α) : Dict α :=
  if fs.present base then
    (((fs.subdirs base).map (fun n => base ++ "/" ++ n)).insertionSort
        (fun a b => fs.ctime a ≤ fs.ctime b)).foldl
      (fun acc2 p => if p ∈ ignored then acc2 else dictInsert acc2 p (fs.size p)) acc
  else acc

/-- `scan_folders_by_mapping(config)` (lines 54–82): fold over the
mapping-rule roots in declaration order, skipping every folder whose
absolute path is a key of the wait-cleanup ledger. -/
def scan_folders_by_mapping {α : Type} (fs : FSModel α) (rules : List (String × String))
    (ledger : Ledger) : Dict α :=
  (rules.map Prod.fst).foldl (fun acc base => scanOneRoot fs (dictKeys ledger) base acc) []

/-- The only uncaught exception the modelled code can raise: indexing an
empty `rclone_drives` list. -/
inductive PyErr where
  | indexError
  deriving DecidableEq

/-- One `rclone copy` invocation: folder, destination, drive used, and
the drive index current at the time of the attempt. -/
structure Attempt where
  folder : String
  dest : String
  drive : String
  idx : Nat
  deriving DecidableEq

/-- Observable events of an upload run: copy attempts and
`write_wait_cleanup` persistences (with the ledger written). -/
inductive Ev where
  | att (a : Attempt)
  | persist (ledger : Ledger)
  deriving DecidableEq

/-- Result of `upload_folders`: the event trace in program order, the
final drive index, the final in-memory ledger, and the folder at which
the run aborted with "No more drives available" (if any). -/
structure RunResult where
  trace : List Ev
  finalIdx : Nat
  mem : Ledger
  abortedAt : Option String
  deriving DecidableEq

/-- The `while True` retry loop of `upload_folders` (lines 121–141) for
one folder, attempting the remaining drives `drives[i:]` in order:
on success return the index used; after a failure on the last drive the
index has been advanced past the end (`stop_all`).  Also returns the
copy attempts made, in order. -/
def tryDrives (copy : String → String → Bool) (folder base suffix : String) :
    List String → Nat → List Attempt × Option Nat
  | [], _ => ([], none)
  | d :: rest, i =>
    if copy folder (destinationFor folder base d suffix) then
      ([⟨folder, destinationFor folder base d suffix, d, i⟩], some i)
    else
      let r := tryDrives copy folder base suffix rest (i + 1)
      (⟨folder, destinationFor folder base d suffix, d, i⟩ :: r.1, r.2)

/-- The folder loop of `upload_folders` (lines 115–146), starting from
drive index `idx` with in-memory ledger `mem` (loaded once at line 113).
A folder matching no mapping rule is skipped silently; on a successful
copy the folder is recorded with timestamp `now` and the ledger is
persisted immediately; on drive exhaustion the whole run stops.  The
`drives[current_drive_index]` access of line 119 raises `IndexError`
when the drive list is empty. -/
def uploadGo (copy : String → String → Bool) (rules : List (String × String))
    (drives : List String) (now : Int) :
    List String → Nat → Ledger → Except PyErr RunResult
  | [], idx, mem => .ok ⟨[], idx, mem, none⟩
  | folder :: rest, idx, mem =>
    match resolveRule rules folder with
    | none => uploadGo copy rules drives now rest idx mem
    | some (base, suffix) =>
      match drives.get? idx with
      | none => .error .indexError
      | some _ =>
        let t := tryDrives copy folder base suffix (drives.drop idx) idx
        match t.2 with
        | some j =>
          match uploadGo copy rules drives now rest j (dictInsert mem folder now) with
          | .error e => .error e
          | .ok r =>
            .ok ⟨t.1.map Ev.att ++ (Ev.persist (dictInsert mem folder now) :: r.trace),
              r.finalIdx, r.mem, r.abortedAt⟩
        | none => .ok ⟨t.1.map Ev.att, drives.length, mem, some folder⟩

/-- `upload_folders(selected_folders, config)` (lines 101–147): the drive
index starts at 0 and the in-memory ledger starts from the persisted
state `mem0` loaded at line 113. -/
def upload_folders (copy : String → String → Bool) (rules : List (String × String))
    (drives : List String) (now : Int) (selected : List String) (mem0 : Ledger) :
    Except PyErr RunResult :=
  uploadGo copy rules drives now selected 0 mem0

/-- The copy attempts of a trace, in order. -/
def attemptsOf (t : List Ev) : List Attempt :=
  t.filterMap fun e =>
    match e with
    | .att a => some a
    | .persist _ => none

/-- Observable events of a cleanup run: `is_folder_uploaded` checks,
`rm -rf` deletions, and ledger writes. -/
inductive CEv where
  | verify (folder remote : String) (ok : Bool)
  | deleteLocal (folder : String)
  | persist (ledger : Ledger)
  deriving DecidableEq

/-- Result of `cleanup_old_uploads`: the final ledger and the event
trace in program order. -/
structure CleanupResult where
  ledger : Ledger
  trace : List CEv
  deriving DecidableEq

/-- The entry loop of `cleanup_old_uploads` (lines 181–196), iterating
over a snapshot of the loaded ledger while mutating the live dict `cur`.
An entry strictly older than the threshold whose path matches a mapping
rule is verified against the canonical drive, locally deleted when the
check reports full presence, and removed from the ledger, which is
re-persisted immediately; non-aged or unmatched entries are untouched. -/
def cleanupGo (rules : List (String × String)) (drive : String) (threshold : Int)
    (vrf : String → String → Bool) : List (String × Int) → Ledger → CleanupResult
  | [], cur => ⟨cur, []⟩
  | (folder, t) :: rest, cur =>
    if t < threshold then
      match resolveRule rules folder with
      | some (base, suffix) =>
        let v := vrf folder (destinationFor folder base drive suffix)
        let cur' := dictErase cur folder
        let r := cleanupGo rules drive threshold vrf rest cur'
        ⟨r.ledger,
          CEv.verify folder (destinationFor folder base drive suffix) v ::
            ((if v then [CEv.deleteLocal folder] else []) ++ (CEv.persist cur' :: r.trace))⟩
      | none => cleanupGo rules drive threshold vrf rest cur
    else cleanupGo rules drive threshold vrf rest cur

/-- `cleanup_old_uploads(config)` (lines 149–200): the threshold is
`now - cleanup_offset_days` and the canonical drive is
`config.get("rclone_drives", [])[0]` (line 178) — an `IndexError` on an
empty drive list, raised after loading the ledger but before looking at
any entry. -/
def cleanup_old_uploads (rules : List (String × String)) (drives : List String)
    (graceDays now : Int) (vrf : String → String → Bool) (ledger : Ledger) :
    Except PyErr CleanupResult :=
  match drives with
  | [] => .error .indexError
  | d :: _ => .ok (cleanupGo rules d (now - graceDays) vrf ledger ledger)

/-- Events on the wait-cleanup lock file. -/
inductive LockEv where
  | acq
  | rel
  | readL
  | writeL
  deriving DecidableEq

/-- `load_wait_cleanup()` (lines 36–45): one scoped lock acquisition
around the read. -/
def loadLockTrace : List LockEv :=
  [.acq, .readL, .rel]

/-- `write_wait_cleanup(data)` (lines 47–52): one scoped lock
acquisition around the write. -/
def writeLockTrace : List LockEv :=
  [.acq, .writeL, .rel]

/-- Lock events caused by one upload-run event: a copy attempt touches
the lock not at all, each persistence is one `write_wait_cleanup` call. -/
def evLock : Ev → List LockEv
  | .att _ => []
  | .persist _ => writeLockTrace

/-- Lock-file events of a whole upload run: one `load_wait_cleanup()` at
line 113, then one `write_wait_cleanup` per success — the lock is not
held in between. -/
def uploadLockTrace (t : List Ev) : List LockEv :=
  loadLockTrace ++ (t.map evLock).flatten

/-- Lock events caused by one cleanup event: the ledger writes at lines
193–194 happen inside the already-held lock (no nested acquisition). -/
def cEvLock : CEv → List LockEv
  | .persist _ => [.writeL]
  | _ => []

/-- Lock-file events of a whole cleanup run (lines 159–198): the lock is
acquired once, the ledger read, every write happens under the same
acquisition, and the `finally` releases it on both the normal and the
exceptional exit (the `IndexError` of line 178 escapes after the read
but the lock is still released). -/
def cleanupLockTrace : Except PyErr CleanupResult → List LockEv
  | .error _ => [.acq, .readL, .rel]
  | .ok r => .acq :: .readL :: ((r.trace.map cEvLock).flatten ++ [.rel])

/-- A well-scoped read-modify-write: acquired once at the start, released
once at the end, and nothing but reads and writes in between. -/
def midRMW : List LockEv → Bool
  | [.rel] => true
  | .readL :: rest => midRMW rest
  | .writeL :: rest => midRMW rest
  | _ => false

/-- Whether a lock trace is one continuous exclusive critical section. -/
def continuousRMW : List LockEv → Bool
  | .acq :: rest => midRMW rest
  | _ => false

/-- The `while True` / `lock.acquire(timeout=1)` / `except Timeout:
continue` loop of lines 160–167: attempt `k` succeeds when the lock is
free at that attempt; the loop never gives up (fuel bounds the observed
attempts only). -/
def acquireRetry (avail : Nat → Bool) : Nat → Nat → Option Nat
  | 0, _ => none
  | fuel + 1, k => if avail k then some k else acquireRetry avail fuel (k + 1)

/-- The per-attempt drive-index step of `upload_folders`: a successful
copy leaves the index unchanged (line 128 breaks out of the retry loop),
a failed copy advances it by exactly one (line 135). -/
def stepR (copy : String → String → Bool) (a b : Attempt) : Prop :=
  b.idx = if copy a.folder a.dest then a.idx else a.idx + 1

/-- Every successful copy attempt in the trace is immediately followed by
a persistence of a ledger that maps the uploaded folder to the current
timestamp — in particular the persistence happens before any later
event, so before any later folder's copy attempt. -/
def immediatePersist (copy : String → String → Bool) (now : Int) (t : List Ev) : Prop :=
  ∀ i a, t[i]? = some (Ev.att a) → copy a.folder a.dest = true →
    ∃ L, t[i + 1]? = some (Ev.persist L) ∧ dictLookup L a.folder = some now

/-- Number of `write_wait_cleanup` persistences in an upload trace. -/
def persistCount : List Ev → Nat
  | [] => 0
  | Ev.att _ :: rest => persistCount rest
  | Ev.persist _ :: rest => persistCount rest + 1

/-- Oracle: every `rclone copy` fails (e.g. the drive is rate-limited). -/
def copyNever : String → String → Bool := fun _ _ => false

/-- Oracle: every `rclone copy` succeeds. -/
def copyAlways : String → String → Bool := fun _ _ => true

/-- Oracle: `rclone copy` succeeds exactly on destinations of drive `d2`. -/
def copyOnD2 : String → String → Bool := fun _ dest => strStartsWith dest "d2"

/-- Oracle: `rclone check` always reports a mismatch. -/
def verifyNever : String → String → Bool := fun _ _ => false

/-- Oracle: `rclone check` always reports full presence. -/
def verifyAlways : String → String → Bool := fun _ _ => true

/-- Oracle: the ledger lock becomes free at acquisition attempt 3. -/
def availAt3 : Nat → Bool := fun k => k == 3

/-- A two-subdirectory filesystem under the single root `/a`. -/
def fsW : FSModel Int :=
  ⟨fun b => b == "/a", fun _ => ["x", "y"], fun _ => 0, fun _ => 1⟩

example : pyReplace "/a/a" "/a" "d:/r" = "d:/rd:/r" := by decide
example : pyReplace "/a/x" "/a" "d1:/r" = "d1:/r/x" := by decide
example : strStartsWith "/a/x" "/a" = true := by decide
example : select_folders_for_upload [("A", (30 : Int)), ("B", 40), ("C", 50)] 100 = ["A", "B"] := by
  decide
example :
    upload_folders (fun _ _ => false) [("/a", "/r")] ["d1"] 5 ["/a/x", "/a/y"] [] =
      .ok ⟨[.att ⟨"/a/x", "d1:/r/x", "d1", 0⟩], 1, [], some "/a/x"⟩ := by
  decide
example :
    upload_folders (fun _ d => strStartsWith d "d2") [("/a", "/r")] ["d1", "d2"] 5
        ["/a/x", "/a/y"] [] =
      .ok ⟨[.att ⟨"/a/x", "d1:/r/x", "d1", 0⟩, .att ⟨"/a/x", "d2:/r/x", "d2", 1⟩,
        .persist [("/a/x", 5)], .att ⟨"/a/y", "d2:/r/y", "d2", 1⟩,
        .persist [("/a/x", 5), ("/a/y", 5)]], 1, [("/a/x", 5), ("/a/y", 5)], none⟩ := by
  decide
example :
    cleanup_old_uploads [("/a", "/r")] ["d"] 7 10 (fun _ _ => true) [("/a/x", 0), ("/a/y", 20)] =
      .ok ⟨[("/a/y", 20)], [.verify "/a/x" "d:/r/x" true, .deleteLocal "/a/x",
        .persist [("/a/y", 20)]]⟩ := by
  decide
example : cleanup_old_uploads [("/a", "/r")] ["d"] 7 7 (fun _ _ => true) [("/a/x", 0)] =
    .ok ⟨[("/a/x", 0)], []⟩ := by decide

theorem dictKeys_nil {α : Type} : dictKeys ([] : Dict α) = [] := rfl

theorem dictKeys_cons {α : Type} (p : String × α) (d : Dict α) :
    dictKeys (p :: d) = p.1 :: dictKeys d := rfl

theorem mem_dictKeys_dictInsert {α : Type} : ∀ (d : Dict α) (k k' : String) (v : α),
    k ∈ dictKeys (dictInsert d k' v) → k ∈ dictKeys d ∨ k = k'
  | [], k, k', v, h => Or.inr (by simpa [dictInsert, dictKeys_cons, dictKeys_nil] using h)
  | (pk, pv) :: rest, k, k', v, h => by
    by_cases he : pk = k'
    · rw [show dictInsert ((pk, pv) :: rest) k' v = (k', v) :: rest from by
        simp [dictInsert, he]] at h
      simp only [dictKeys_cons, List.mem_cons] at h ⊢
      rcases h with h | h
      · exact Or.inr h
      · exact Or.inl (Or.inr h)
    · rw [show dictInsert ((pk, pv) :: rest) k' v = (pk, pv) :: dictInsert rest k' v from by
        simp [dictInsert, he]] at h
      simp only [dictKeys_cons, List.mem_cons] at h ⊢
      rcases h with h | h
      · exact Or.inl (Or.inl h)
      · rcases mem_dictKeys_dictInsert rest k k' v h with h' | h'
        · exact Or.inl (Or.inr h')
        · exact Or.inr h'

theorem dictLookup_dictInsert_self {α : Type} (d : Dict α) (k : String) (v : α) :
    dictLookup (dictInsert d k v) k = some v := by
  induction d with
  | nil => simp [dictInsert, dictLookup]
  | cons p rest ih =>
    obtain ⟨pk, pv⟩ := p
    by_cases he : pk = k
    · subst he; simp [dictInsert, dictLookup]
    · simp [dictInsert, dictLookup, he, ih]

theorem selectGo_eq_take {α : Type} [AddCommMonoid α] [LinearOrder α] (max_size : α)
    (l : Dict α) :
    ∀ total, selectGo max_size l total =
      (l.map Prod.fst).take (selectGo max_size l total).length := by
  induction l with
  | nil => intro total; rfl
  | cons p rest ih =>
    intro total
    obtain ⟨f, s⟩ := p
    by_cases h : total + s ≤ max_size
    · simp only [selectGo, if_pos h, List.map_cons, List.length_cons, List.take_succ_cons]
      exact congrArg (List.cons f) (ih (total + s))
    · simp [selectGo, if_neg h]

theorem selectGo_sum {α : Type} [AddCommMonoid α] [LinearOrder α] (max_size : α)
    (l : Dict α) :
    ∀ total, total ≤ max_size →
      total + cumSize (l.take (selectGo max_size l total).length) ≤ max_size := by
  induction l with
  | nil => intro total h; simpa [selectGo, cumSize] using h
  | cons p rest ih =>
    intro total h
    obtain ⟨f, s⟩ := p
    by_cases hb : total + s ≤ max_size
    · have ihh := ih (total + s) hb
      simp only [selectGo, if_pos hb, List.length_cons, List.take_succ_cons, cumSize,
        List.map_cons, List.sum_cons] at ihh ⊢
      rw [← add_assoc]
      exact ihh
    · simpa [selectGo, if_neg hb, cumSize] using h

theorem selectGo_stop {α : Type} [AddCommMonoid α] [LinearOrder α] (max_size : α)
    (l : Dict α) :
    ∀ total, (selectGo max_size l total).length < l.length →
      ¬(total + cumSize (l.take ((selectGo max_size l total).length + 1)) ≤ max_size) := by
  induction l with
  | nil => intro total h; simp at h
  | cons p rest ih =>
    intro total h
    obtain ⟨f, s⟩ := p
    by_cases hb : total + s ≤ max_size
    · have hlen : (selectGo max_size rest (total + s)).length < rest.length := by
        simpa [selectGo, if_pos hb] using h
      have ihh := ih (total + s) hlen
      simp only [selectGo, if_pos hb, List.length_cons, List.take_succ_cons, cumSize,
        List.map_cons, List.sum_cons] at ihh ⊢
      intro hc
      rw [← add_assoc] at hc
      exact ihh hc
    · intro hc
      apply hb
      simpa [selectGo, if_neg hb, cumSize] using hc

/-- C5 (amended): for every candidate sequence and budget the selection is
the prefix of the input order of its own length; for a nonnegative budget
its cumulative size stays within the budget; and whenever some candidate
is unselected, adding the first unselected candidate's size to the
selected total would exceed the budget — so no later candidate is
selected either (the selection being a prefix).  Stated over any linearly
ordered additive commutative monoid of sizes (the code's floating-point
GB values only ever get added and compared). -/
theorem selector_prefix_budget {α : Type} [AddCommMonoid α] [LinearOrder α]
    (folders : Dict α) (budget : α) :
    select_folders_for_upload folders budget =
        (folders.map Prod.fst).take (select_folders_for_upload folders budget).length
      ∧ (0 ≤ budget →
          cumSize (folders.take (select_folders_for_upload folders budget).length) ≤ budget)
      ∧ ((select_folders_for_upload folders budget).length < folders.length →
          ¬(cumSize (folders.take
            ((select_folders_for_upload folders budget).length + 1)) ≤ budget)) := by
  refine ⟨selectGo_eq_take budget folders 0, fun h0 => ?_, fun hlt => ?_⟩
  · simpa using selectGo_sum budget folders 0 h0
  · intro hc
    exact selectGo_stop budget folders 0 hlt (by simpa using hc)

theorem selector_prefix_budget_witness :
    select_folders_for_upload [("A", (30 : Int)), ("B", 40), ("C", 50)] 100 =
        ([("A", (30 : Int)), ("B", 40), ("C", 50)].map Prod.fst).take
          (select_folders_for_upload [("A", (30 : Int)), ("B", 40), ("C", 50)] 100).length
      ∧ cumSize ([("A", (30 : Int)), ("B", 40), ("C", 50)].take
          (select_folders_for_upload [("A", (30 : Int)), ("B", 40), ("C", 50)] 100).length)
          ≤ 100
      ∧ ¬(cumSize ([("A", (30 : Int)), ("B", 40), ("C", 50)].take
          ((select_folders_for_upload [("A", (30 : Int)), ("B", 40), ("C", 50)] 100).length
            + 1)) ≤ 100) :=
  ⟨(selector_prefix_budget _ _).1,
   (selector_prefix_budget _ _).2.1 (by decide),
   (selector_prefix_budget _ _).2.2 (by decide)⟩

/-- C5 counterexample: with budget `-1` (a configured `upload_size_gb` of
`-1`) and one candidate of size 5 the selection is empty, and the
cumulative size of the (empty) selection, 0, does not satisfy
`cumulative ≤ budget` — refuting the claim's "every budget". -/
theorem selector_negative_budget_counterexample :
    select_folders_for_upload [("/a", (5 : Int))] (-1) = []
      ∧ ¬(cumSize ([("/a", (5 : Int))].take
          (select_folders_for_upload [("/a", (5 : Int))] (-1)).length) ≤ (-1 : Int)) := by
  decide

/-- C10: on an empty `rclone_drives` list the cleanup sweep raises an
uncaught `IndexError` at `config.get("rclone_drives", [])[0]` (line 178),
whatever the ledger holds — in particular before any entry is examined —
and with a non-empty drive list that indexing never raises. -/
theorem cleanup_empty_drives_index_error (rules : List (String × String))
    (drives : List String) (graceDays now : Int) (vrf : String → String → Bool)
    (ledger : Ledger) :
    (drives = [] →
        cleanup_old_uploads rules drives graceDays now vrf ledger = .error .indexError)
      ∧ (drives ≠ [] →
        cleanup_old_uploads rules drives graceDays now vrf ledger ≠ .error .indexError) := by
  constructor
  · rintro rfl; rfl
  · intro h
    cases drives with
    | nil => exact absurd rfl h
    | cons d ds => simp [cleanup_old_uploads]

theorem cleanup_empty_drives_index_error_witness :
    cleanup_old_uploads [] [] 0 0 verifyAlways [("/a/x", 0)] = .error .indexError
      ∧ cleanup_old_uploads [] ["d"] 0 0 verifyAlways [("/a/x", 0)] ≠ .error .indexError :=
  ⟨(cleanup_empty_drives_index_error [] [] 0 0 verifyAlways [("/a/x", 0)]).1 rfl,
   (cleanup_empty_drives_index_error [] ["d"] 0 0 verifyAlways [("/a/x", 0)]).2 (by simp)⟩

/-- C9: evaluating `upload_folders` at a selection whose first folder
`/b/x` matches no mapping rule: the folder is skipped with no copy
attempt, no event, no ledger entry and no error — the run silently
continues with the next folder `/a/y` — where the claim (and spec §4.4)
demand that the coordinator raise the invariant violation loudly. -/
theorem upload_skips_unmatched_silently :
    upload_folders copyAlways [("/a", "/r")] ["d1"] 5 ["/b/x", "/a/y"] [] =
      .ok ⟨[.att ⟨"/a/y", "d1:/r/y", "d1", 0⟩, .persist [("/a/y", 5)]],
        0, [("/a/y", 5)], none⟩ := by
  decide

theorem not_mem_keys_scanFold {α : Type} (fs : FSModel α) (ignored : List String)
    (p : String) (hp : p ∈ ignored) :
    ∀ (l : List String) (acc : Dict α), p ∉ dictKeys acc →
      p ∉ dictKeys (l.foldl
        (fun acc2 q => if q ∈ ignored then acc2 else dictInsert acc2 q (fs.size q)) acc)
  | [], _, hacc => hacc
  | q :: rest, acc, hacc => by
    by_cases hq : q ∈ ignored
    · simpa [hq] using not_mem_keys_scanFold fs ignored p hp rest acc hacc
    · have hacc' : p ∉ dictKeys (dictInsert acc q (fs.size q)) := fun hmem =>
        (mem_dictKeys_dictInsert acc p q (fs.size q) hmem).elim hacc (fun h2 => hq (h2 ▸ hp))
      simpa [hq] using not_mem_keys_scanFold fs ignored p hp rest _ hacc'

theorem not_mem_keys_scanOneRoot {α : Type} (fs : FSModel α) (ignored : List String)
    (p base : String) (acc : Dict α) (hp : p ∈ ignored) (hacc : p ∉ dictKeys acc) :
    p ∉ dictKeys (scanOneRoot fs ignored base acc) := by
  unfold scanOneRoot
  by_cases hb : fs.present base
  · simp only [hb, if_pos]
    exact not_mem_keys_scanFold fs ignored p hp _ acc hacc
  · simpa [hb] using hacc

/-- C6: for every filesystem state and every ledger state, a folder whose
absolute path is a key of the wait-cleanup ledger is never among the
keys of the scanner's result — `scan_folders_by_mapping` skips it at
lines 72–75 whichever mapped root it lies under. -/
theorem scanner_excludes_ledger_keys {α : Type} (fs : FSModel α)
    (rules : List (String × String)) (ledger : Ledger) (p : String)
    (hp : p ∈ dictKeys ledger) :
    p ∉ dictKeys (scan_folders_by_mapping fs rules ledger) := by
  unfold scan_folders_by_mapping
  have main : ∀ (roots : List String) (acc : Dict α), p ∉ dictKeys acc →
      p ∉ dictKeys (roots.foldl
        (fun acc2 base => scanOneRoot fs (dictKeys ledger) base acc2) acc) := by
    intro roots
    induction roots with
    | nil => intro acc hacc; exact hacc
    | cons base rest ih =>
      intro acc hacc
      exact ih _ (not_mem_keys_scanOneRoot fs (dictKeys ledger) p base acc hp hacc)
  exact main _ [] (by simp [dictKeys])

theorem scanner_excludes_ledger_keys_witness :
    "/a/x" ∉ dictKeys (scan_folders_by_mapping fsW [("/a", "/r")] [("/a/x", 3)]) :=
  scanner_excludes_ledger_keys fsW [("/a", "/r")] [("/a/x", 3)] "/a/x" (by decide)

theorem replaceAllFuel_of_not_contains (old new : List Char) :
    ∀ (fuel : Nat) (s : List Char), s.length ≤ fuel → containsSub old s = false →
      replaceAllFuel old new fuel s = s := by
  intro fuel
  induction fuel with
  | zero => intro s _ _; rfl
  | succ fuel ih =>
    intro s hlen hc
    cases s with
    | nil => rfl
    | cons c cs =>
      simp only [containsSub, Bool.or_eq_false_iff] at hc
      obtain ⟨hpre, hrest⟩ := hc
      have hcond : ¬(old ≠ [] ∧ old.isPrefixOf (c :: cs) = true) := by
        rintro ⟨_, hp⟩
        rw [hpre] at hp
        exact Bool.false_ne_true hp
      simp only [replaceAllFuel]
      rw [if_neg hcond]
      have hlen' : cs.length ≤ fuel := by simpa using hlen
      exact congrArg (List.cons c) (ih cs hlen' hrest)

theorem replaceAllFuel_prefix_step (old new : List Char) (fuel : Nat) (c : Char)
    (cs : List Char) (hne : old ≠ []) (hpre : old.isPrefixOf (c :: cs) = true) :
    replaceAllFuel old new (fuel + 1) (c :: cs) =
      new ++ replaceAllFuel old new fuel ((c :: cs).drop old.length) := by
  simp only [replaceAllFuel]
  rw [if_pos ⟨hne, hpre⟩]

theorem pyReplace_single_leading (folder base repl : String)
    (hne : base.data ≠ []) (hpre : strStartsWith folder base = true)
    (hnc : containsSub base.data (folder.data.drop base.data.length) = false) :
    pyReplace folder base repl = specLeadingSubst folder base repl := by
  have hp : base.data <+: folder.data := by
    unfold strStartsWith at hpre
    exact List.isPrefixOf_iff_prefix.mp hpre
  obtain ⟨rest, hrest⟩ := hp
  cases hbd : base.data with
  | nil => exact absurd hbd hne
  | cons b0 btl =>
    have hfd : folder.data = b0 :: (btl ++ rest) := by
      rw [← hrest, hbd]; rfl
    have hdrop : folder.data.drop base.data.length = rest := by
      rw [hfd, hbd]
      simp [List.drop_left btl rest]
    have hnc' : containsSub base.data rest = false := by rwa [hdrop] at hnc
    have hpre' : base.data.isPrefixOf folder.data = true := by
      unfold strStartsWith at hpre; exact hpre
    unfold pyReplace specLeadingSubst
    rw [hdrop]
    have hlen : folder.data.length = (btl ++ rest).length + 1 := by rw [hfd]; rfl
    have step : replaceAllFuel base.data repl.data folder.data.length folder.data =
        repl.data ++ replaceAllFuel base.data repl.data ((btl ++ rest).length)
          (folder.data.drop base.data.length) := by
      conv_lhs => rw [hlen, hfd]
      rw [replaceAllFuel_prefix_step base.data repl.data ((btl ++ rest).length) b0
        (btl ++ rest) hne (by rw [← hfd]; exact hpre')]
      rw [← hfd]
    rw [step, hdrop]
    rw [replaceAllFuel_of_not_contains base.data repl.data ((btl ++ rest).length) rest
      (by simp) hnc']
    obtain ⟨rd⟩ := repl
    rfl

theorem resolveRule_mem : ∀ (rules : List (String × String)) (folder base suffix : String),
    resolveRule rules folder = some (base, suffix) →
      (base, suffix) ∈ rules ∧ strStartsWith folder base = true
  | [], _, _, _, h => by simp [resolveRule] at h
  | (b, s) :: rest, folder, base, suffix, h => by
    cases hb : strStartsWith folder b with
    | true =>
      simp only [resolveRule, hb, if_true, Option.some.injEq] at h
      obtain ⟨h1, h2⟩ := Prod.mk.injEq .. ▸ h
      exact ⟨by rw [← h1, ← h2]; exact List.mem_cons_self _ _, by rw [← h1]; exact hb⟩
    | false =>
      simp only [resolveRule, hb, Bool.false_eq_true, if_false] at h
      have ihr := resolveRule_mem rest folder base suffix h
      exact ⟨List.mem_cons_of_mem _ ihr.1, ihr.2⟩

theorem resolveRule_none : ∀ (rules : List (String × String)) (folder : String),
    (∀ r ∈ rules, strStartsWith folder r.1 = false) → resolveRule rules folder = none
  | [], _, _ => rfl
  | (b, s) :: rest, folder, h => by
    have hb := h (b, s) (List.mem_cons_self _ _)
    simp only [resolveRule, hb, Bool.false_eq_true, if_false]
    exact resolveRule_none rest folder (fun r hr => h r (List.mem_cons_of_mem _ hr))

theorem resolveRule_unique : ∀ (rules : List (String × String)) (folder base suffix : String),
    (base, suffix) ∈ rules → strStartsWith folder base = true →
    (∀ r ∈ rules, strStartsWith folder r.1 = true → r = (base, suffix)) →
    resolveRule rules folder = some (base, suffix)
  | [], _, _, _, hmem, _, _ => absurd hmem (List.not_mem_nil _)
  | (b, s) :: rest, folder, base, suffix, hmem, hsw, huniq => by
    cases hb : strStartsWith folder b with
    | true =>
      have heq := huniq (b, s) (List.mem_cons_self _ _) hb
      simp only [resolveRule, hb, if_true]
      rw [heq]
    | false =>
      have hmem' : (base, suffix) ∈ rest := by
        rcases List.mem_cons.mp hmem with heq | h'
        · exfalso
          have : b = base := (Prod.mk.injEq .. ▸ heq.symm).1
          rw [this] at hb
          rw [hsw] at hb
          exact Bool.noConfusion hb
        · exact h'
      simp only [resolveRule, hb, Bool.false_eq_true, if_false]
      exact resolveRule_unique rest folder base suffix hmem' hsw
        (fun r hr => huniq r (List.mem_cons_of_mem _ hr))

/-- C8 (amended): `resolveRule` returns a rule of the table whose
`localRoot` is a string prefix of the folder, returns none when no rule
matches, and returns THE matching rule whenever at most one rule matches
(the spec's non-overlapping-roots invariant).  The remote destination is
the folder with EVERY occurrence of `localRoot` substituted by
`drive + ":" + remoteSuffix` (Python `str.replace` semantics); whenever
`localRoot` occurs in the path only as its leading prefix, this agrees
with the claim's leading-occurrence substitution that leaves all other
characters unchanged. -/
theorem mapping_resolution_and_destination (rules : List (String × String))
    (folder base suffix drive : String) :
    (resolveRule rules folder = some (base, suffix) →
        (base, suffix) ∈ rules ∧ strStartsWith folder base = true)
      ∧ ((∀ r ∈ rules, strStartsWith folder r.1 = false) → resolveRule rules folder = none)
      ∧ ((base, suffix) ∈ rules → strStartsWith folder base = true →
          (∀ r ∈ rules, strStartsWith folder r.1 = true → r = (base, suffix)) →
          resolveRule rules folder = some (base, suffix))
      ∧ (base.data ≠ [] → strStartsWith folder base = true →
          containsSub base.data (folder.data.drop base.data.length) = false →
          destinationFor folder base drive suffix =
            specLeadingSubst folder base (drive ++ ":" ++ suffix)) :=
  ⟨resolveRule_mem rules folder base suffix,
   resolveRule_none rules folder,
   fun h1 h2 h3 => resolveRule_unique rules folder base suffix h1 h2 h3,
   fun h1 h2 h3 => pyReplace_single_leading folder base (drive ++ ":" ++ suffix) h1 h2 h3⟩

theorem mapping_resolution_and_destination_witness :
    (("/a", "/r") ∈ [("/a", "/r")] ∧ strStartsWith "/a/x" "/a" = true)
      ∧ resolveRule [("/b", "/q")] "/a/x" = none
      ∧ resolveRule [("/a", "/r")] "/a/x" = some ("/a", "/r")
      ∧ destinationFor "/a/x" "/a" "d1" "/r" =
          specLeadingSubst "/a/x" "/a" ("d1" ++ ":" ++ "/r") :=
  ⟨(mapping_resolution_and_destination [("/a", "/r")] "/a/x" "/a" "/r" "d1").1 (by decide),
   (mapping_resolution_and_destination [("/b", "/q")] "/a/x" "/a" "/r" "d1").2.1 (by decide),
   (mapping_resolution_and_destination [("/a", "/r")] "/a/x" "/a" "/r" "d1").2.2.1
     (by decide) (by decide) (by decide),
   (mapping_resolution_and_destination [("/a", "/r")] "/a/x" "/a" "/r" "d1").2.2.2
     (by decide) (by decide) (by decide)⟩

/-- C8 counterexample: for folder `/a/a` under rule `/a -> /r` with drive
`d`, the code's `str.replace` substitutes BOTH occurrences of `/a`,
producing `d:/rd:/r` — not the claimed substitution of the leading
occurrence with all other characters unchanged, which gives `d:/r/a`. -/
theorem destination_replaces_all_occurrences :
    destinationFor "/a/a" "/a" "d" "/r" = "d:/rd:/r"
      ∧ destinationFor "/a/a" "/a" "d" "/r" ≠
        specLeadingSubst "/a/a" "/a" ("d" ++ ":" ++ "/r") := by
  decide

theorem mem_dictKeys_dictErase {α : Type} : ∀ (d : Dict α) (k k' : String),
    k ∈ dictKeys (dictErase d k') → k ∈ dictKeys d
  | [], _, _, h => h
  | (pk, pv) :: rest, k, k', h => by
    by_cases he : pk = k'
    · rw [show dictErase ((pk, pv) :: rest) k' = rest from by simp [dictErase, he]] at h
      simp only [dictKeys_cons, List.mem_cons]
      exact Or.inr h
    · rw [show dictErase ((pk, pv) :: rest) k' = (pk, pv) :: dictErase rest k' from by
        simp [dictErase, he]] at h
      simp only [dictKeys_cons, List.mem_cons] at h ⊢
      rcases h with h | h
      · exact Or.inl h
      · exact Or.inr (mem_dictKeys_dictErase rest k k' h)

theorem not_mem_dictKeys_dictErase_self {α : Type} : ∀ (d : Dict α) (k : String),
    (dictKeys d).Nodup → k ∉ dictKeys (dictErase d k)
  | [], k, _ => by simp [dictErase, dictKeys_nil]
  | (pk, pv) :: rest, k, hnd => by
    rw [dictKeys_cons] at hnd
    obtain ⟨hpk, hnd'⟩ := List.nodup_cons.mp hnd
    intro h
    by_cases he : pk = k
    · rw [show dictErase ((pk, pv) :: rest) k = rest from by simp [dictErase, he]] at h
      exact hpk (he ▸ h)
    · rw [show dictErase ((pk, pv) :: rest) k = (pk, pv) :: dictErase rest k from by
        simp [dictErase, he]] at h
      simp only [dictKeys_cons, List.mem_cons] at h
      rcases h with h | h
      · exact he h.symm
      · exact not_mem_dictKeys_dictErase_self rest k hnd' h

theorem mem_dictErase_of_ne {α : Type} : ∀ (d : Dict α) (k k' : String) (v : α),
    (k, v) ∈ d → k ≠ k' → (k, v) ∈ dictErase d k'
  | [], _, _, _, h, _ => absurd h (List.not_mem_nil _)
  | (pk, pv) :: rest, k, k', v, h, hne => by
    by_cases he : pk = k'
    · rw [show dictErase ((pk, pv) :: rest) k' = rest from by simp [dictErase, he]]
      rcases List.mem_cons.mp h with heq | h'
      · exfalso
        have hk : k = pk := (Prod.mk.injEq .. ▸ heq).1
        exact hne (hk.trans he)
      · exact h'
    · rw [show dictErase ((pk, pv) :: rest) k' = (pk, pv) :: dictErase rest k' from by
        simp [dictErase, he]]
      rcases List.mem_cons.mp h with heq | h'
      · exact heq ▸ List.mem_cons_self _ _
      · exact List.mem_cons_of_mem _ (mem_dictErase_of_ne rest k k' v h' hne)

theorem dictErase_sublist {α : Type} : ∀ (d : Dict α) (k : String),
    List.Sublist (dictErase d k) d
  | [], _ => List.Sublist.refl _
  | (pk, pv) :: rest, k => by
    by_cases he : pk = k
    · rw [show dictErase ((pk, pv) :: rest) k = rest from by simp [dictErase, he]]
      exact List.sublist_cons_self _ _
    · rw [show dictErase ((pk, pv) :: rest) k = (pk, pv) :: dictErase rest k from by
        simp [dictErase, he]]
      exact (dictErase_sublist rest k).cons₂ _

theorem nodup_dictKeys_dictErase {α : Type} (d : Dict α) (k : String)
    (hnd : (dictKeys d).Nodup) : (dictKeys (dictErase d k)).Nodup :=
  hnd.sublist ((dictErase_sublist d k).map Prod.fst)

theorem mem_dictKeys_of_mem {α : Type} {d : Dict α} {k : String} {v : α}
    (h : (k, v) ∈ d) : k ∈ dictKeys d :=
  List.mem_map_of_mem Prod.fst h

theorem dict_value_unique {α : Type} : ∀ (d : Dict α) (k : String) (v1 v2 : α),
    (dictKeys d).Nodup → (k, v1) ∈ d → (k, v2) ∈ d → v1 = v2
  | [], _, _, _, _, h, _ => absurd h (List.not_mem_nil _)
  | (pk, pv) :: rest, k, v1, v2, hnd, h1, h2 => by
    rw [dictKeys_cons] at hnd
    obtain ⟨hpk, hnd'⟩ := List.nodup_cons.mp hnd
    rcases List.mem_cons.mp h1 with he1 | h1'
    · rcases List.mem_cons.mp h2 with he2 | h2'
      · have hkv := he1.trans he2.symm
        exact (Prod.mk.injEq .. ▸ hkv).2
      · exfalso
        have hk : pk = k := ((Prod.mk.injEq .. ▸ he1).1).symm
        exact hpk (by rw [hk]; exact mem_dictKeys_of_mem h2')
    · rcases List.mem_cons.mp h2 with he2 | h2'
      · exfalso
        have hk : pk = k := ((Prod.mk.injEq .. ▸ he2).1).symm
        exact hpk (by rw [hk]; exact mem_dictKeys_of_mem h1')
      · exact dict_value_unique rest k v1 v2 hnd' h1' h2'

theorem cleanupGo_keys_mono (rules : List (String × String)) (drive : String)
    (threshold : Int) (vrf : String → String → Bool) :
    ∀ (l : List (String × Int)) (cur : Ledger) (f : String), f ∉ dictKeys cur →
      f ∉ dictKeys (cleanupGo rules drive threshold vrf l cur).ledger
  | [], _, _, h => h
  | (g, t) :: rest, cur, f, h => by
    by_cases ht : t < threshold
    · cases hr : resolveRule rules g with
      | none =>
        simp only [cleanupGo, if_pos ht, hr]
        exact cleanupGo_keys_mono rules drive threshold vrf rest cur f h
      | some bs =>
        obtain ⟨base, suffix⟩ := bs
        simp only [cleanupGo, if_pos ht, hr]
        exact cleanupGo_keys_mono rules drive threshold vrf rest (dictErase cur g) f
          (fun hm => h (mem_dictKeys_dictErase cur f g hm))
    · simp only [cleanupGo, if_neg ht]
      exact cleanupGo_keys_mono rules drive threshold vrf rest cur f h

theorem cleanupGo_no_events (rules : List (String × String)) (drive : String)
    (threshold : Int) (vrf : String → String → Bool) :
    ∀ (l : List (String × Int)) (cur : Ledger) (f : String),
      (∀ u, (f, u) ∈ l → ¬(u < threshold)) →
      (∀ rem v, CEv.verify f rem v ∉ (cleanupGo rules drive threshold vrf l cur).trace)
        ∧ CEv.deleteLocal f ∉ (cleanupGo rules drive threshold vrf l cur).trace
  | [], cur, f, _ => by
    constructor
    · intro rem v h
      simp only [cleanupGo] at h
      exact List.not_mem_nil _ h
    · intro h
      simp only [cleanupGo] at h
      exact List.not_mem_nil _ h
  | (g, t) :: rest, cur, f, hy => by
    have hy' : ∀ u, (f, u) ∈ rest → ¬(u < threshold) :=
      fun u hu => hy u (List.mem_cons_of_mem _ hu)
    by_cases ht : t < threshold
    · have hgf : g ≠ f := by
        intro he
        exact hy t (he ▸ List.mem_cons_self _ _) ht
      cases hr : resolveRule rules g with
      | none =>
        simp only [cleanupGo, if_pos ht, hr]
        exact cleanupGo_no_events rules drive threshold vrf rest cur f hy'
      | some bs =>
        obtain ⟨base, suffix⟩ := bs
        have ih := cleanupGo_no_events rules drive threshold vrf rest (dictErase cur g) f hy'
        simp only [cleanupGo, if_pos ht, hr]
        constructor
        · intro rem v h
          simp only [List.mem_cons, List.mem_append] at h
          rcases h with h | h
          · exact hgf (CEv.verify.injEq .. ▸ h.symm).1
          · rcases h with h | h
            · by_cases hv : vrf g (destinationFor g base drive suffix) = true
              · simp only [hv, if_true, List.mem_singleton] at h
                exact CEv.noConfusion h
              · simp only [Bool.not_eq_true] at hv
                simp only [hv, Bool.false_eq_true, if_false] at h
                exact List.not_mem_nil _ h
            · rcases h with h | h
              · exact CEv.noConfusion h
              · exact ih.1 rem v h
        · intro h
          simp only [List.mem_cons, List.mem_append] at h
          rcases h with h | h
          · exact CEv.noConfusion h
          · rcases h with h | h
            · by_cases hv : vrf g (destinationFor g base drive suffix) = true
              · simp only [hv, if_true, List.mem_singleton] at h
                exact hgf (CEv.deleteLocal.injEq .. ▸ h.symm)
              · simp only [Bool.not_eq_true] at hv
                simp only [hv, Bool.false_eq_true, if_false] at h
                exact List.not_mem_nil _ h
            · rcases h with h | h
              · exact CEv.noConfusion h
              · exact ih.2 h
    · simp only [cleanupGo, if_neg ht]
      exact cleanupGo_no_events rules drive threshold vrf rest cur f hy'

theorem cleanupGo_preserves_untouched (rules : List (String × String)) (drive : String)
    (threshold : Int) (vrf : String → String → Bool) :
    ∀ (l : List (String × Int)) (cur : Ledger) (f : String) (t : Int),
      (f, t) ∈ cur → (∀ u, (f, u) ∈ l → ¬(u < threshold)) →
      (f, t) ∈ (cleanupGo rules drive threshold vrf l cur).ledger
  | [], _, _, _, hc, _ => hc
  | (g, u) :: rest, cur, f, t, hc, hy => by
    have hy' : ∀ w, (f, w) ∈ rest → ¬(w < threshold) :=
      fun w hw => hy w (List.mem_cons_of_mem _ hw)
    by_cases ht : u < threshold
    · have hgf : g ≠ f := by
        intro he
        exact hy u (he ▸ List.mem_cons_self _ _) ht
      cases hr : resolveRule rules g with
      | none =>
        simp only [cleanupGo, if_pos ht, hr]
        exact cleanupGo_preserves_untouched rules drive threshold vrf rest cur f t hc hy'
      | some bs =>
        obtain ⟨base, suffix⟩ := bs
        simp only [cleanupGo, if_pos ht, hr]
        exact cleanupGo_preserves_untouched rules drive threshold vrf rest (dictErase cur g)
          f t (mem_dictErase_of_ne cur f g t hc (fun h => hgf h.symm)) hy'
    · simp only [cleanupGo, if_neg ht]
      exact cleanupGo_preserves_untouched rules drive threshold vrf rest cur f t hc hy'

theorem cleanupGo_aged_matched (rules : List (String × String)) (drive : String)
    (threshold : Int) (vrf : String → String → Bool) :
    ∀ (l : List (String × Int)) (cur : Ledger) (f : String) (t : Int) (base suffix : String),
      (l.map Prod.fst).Nodup → (dictKeys cur).Nodup →
      (f, t) ∈ l → t < threshold → resolveRule rules f = some (base, suffix) →
      f ∉ dictKeys (cleanupGo rules drive threshold vrf l cur).ledger
        ∧ CEv.verify f (destinationFor f base drive suffix)
            (vrf f (destinationFor f base drive suffix))
            ∈ (cleanupGo rules drive threshold vrf l cur).trace
        ∧ (CEv.deleteLocal f ∈ (cleanupGo rules drive threshold vrf l cur).trace ↔
            vrf f (destinationFor f base drive suffix) = true)
  | [], _, _, _, _, _, _, _, hmem, _, _ => absurd hmem (List.not_mem_nil _)
  | (g, u) :: rest, cur, f, t, base, suffix, hndl, hndc, hmem, ht, hres => by
    rw [List.map_cons] at hndl
    obtain ⟨hgrest, hndl'⟩ := List.nodup_cons.mp hndl
    by_cases hgf : f = g
    · subst hgf
      have hut : u = t := by
        rcases List.mem_cons.mp hmem with he | h'
        · exact ((Prod.mk.injEq .. ▸ he).2).symm
        · exact absurd (mem_dictKeys_of_mem h') hgrest
      subst hut
      have hnorest : ∀ w, (f, w) ∈ rest → ¬(w < threshold) := fun w hw _ =>
        hgrest (mem_dictKeys_of_mem hw)
      have hnoev := cleanupGo_no_events rules drive threshold vrf rest
        (dictErase cur f) f hnorest
      simp only [cleanupGo, if_pos ht, hres]
      refine ⟨?_, ?_, ?_⟩
      · exact cleanupGo_keys_mono rules drive threshold vrf rest (dictErase cur f) f
          (not_mem_dictKeys_dictErase_self cur f hndc)
      · exact List.mem_cons_self _ _
      · constructor
        · intro hd
          by_cases hv : vrf f (destinationFor f base drive suffix) = true
          · exact hv
          · exfalso
            simp only [Bool.not_eq_true] at hv
            simp only [hv, Bool.false_eq_true, if_false, List.nil_append,
              List.mem_cons] at hd
            rcases hd with hd | hd | hd
            · exact CEv.noConfusion hd
            · exact CEv.noConfusion hd
            · exact hnoev.2 hd
        · intro hv
          simp only [hv, if_true]
          exact List.mem_cons_of_mem _ (List.mem_cons_self _ _)
    · have hmem' : (f, t) ∈ rest := by
        rcases List.mem_cons.mp hmem with he | h'
        · exact absurd (Prod.mk.injEq .. ▸ he).1 hgf
        · exact h'
      by_cases htu : u < threshold
      · cases hr : resolveRule rules g with
        | none =>
          simp only [cleanupGo, if_pos htu, hr]
          exact cleanupGo_aged_matched rules drive threshold vrf rest cur f t base suffix
            hndl' hndc hmem' ht hres
        | some bs =>
          obtain ⟨gb, gs⟩ := bs
          have ih := cleanupGo_aged_matched rules drive threshold vrf rest (dictErase cur g)
            f t base suffix hndl' (nodup_dictKeys_dictErase cur g hndc) hmem' ht hres
          simp only [cleanupGo, if_pos htu, hr]
          refine ⟨ih.1, ?_, ?_⟩
          · exact List.mem_cons_of_mem _ (List.mem_append.mpr (Or.inr
              (List.mem_cons_of_mem _ ih.2.1)))
          · constructor
            · intro hd
              simp only [List.mem_cons, List.mem_append] at hd
              rcases hd with hd | hd | hd | hd
              · exact CEv.noConfusion hd
              · by_cases hv : vrf g (destinationFor g gb drive gs) = true
                · simp only [hv, if_true, List.mem_singleton] at hd
                  exact absurd (CEv.deleteLocal.injEq .. ▸ hd) hgf
                · simp only [Bool.not_eq_true] at hv
                  simp only [hv, Bool.false_eq_true, if_false] at hd
                  exact absurd hd (List.not_mem_nil _)
              · exact CEv.noConfusion hd
              · exact ih.2.2.mp hd
            · intro hv
              exact List.mem_cons_of_mem _ (List.mem_append.mpr (Or.inr
                (List.mem_cons_of_mem _ (ih.2.2.mpr hv))))
      · simp only [cleanupGo, if_neg htu]
        exact cleanupGo_aged_matched rules drive threshold vrf rest cur f t base suffix
          hndl' hndc hmem' ht hres

/-- C1 (amended): on a cleanup sweep with a non-empty drive list and a
duplicate-free ledger, every entry that matches a mapping rule and is
STRICTLY older than the grace period (`now - uploadedAt > graceDays`,
the code's `upload_time < now - timedelta(days=offset)`) is removed from
the ledger regardless of the verification outcome, its verification runs
against the remote path built from `drives[0]`, and its local folder is
deleted if and only if that verification reports full presence; every
entry with `now - uploadedAt ≤ graceDays` — including one aged exactly
`graceDays` — is neither evaluated nor removed. -/
theorem cleanup_sweep_grace_and_verification (rules : List (String × String))
    (d : String) (ds : List String) (graceDays now : Int) (vrf : String → String → Bool)
    (ledger : Ledger) (r : CleanupResult)
    (hrun : cleanup_old_uploads rules (d :: ds) graceDays now vrf ledger = .ok r)
    (hnd : (dictKeys ledger).Nodup) :
    (∀ folder t base suffix, (folder, t) ∈ ledger → t < now - graceDays →
        resolveRule rules folder = some (base, suffix) →
        folder ∉ dictKeys r.ledger
          ∧ CEv.verify folder (destinationFor folder base d suffix)
              (vrf folder (destinationFor folder base d suffix)) ∈ r.trace
          ∧ (CEv.deleteLocal folder ∈ r.trace ↔
              vrf folder (destinationFor folder base d suffix) = true))
      ∧ (∀ folder t, (folder, t) ∈ ledger → ¬(t < now - graceDays) →
          (folder, t) ∈ r.ledger
            ∧ (∀ rem v, CEv.verify folder rem v ∉ r.trace)
            ∧ CEv.deleteLocal folder ∉ r.trace) := by
  have hr : r = cleanupGo rules d (now - graceDays) vrf ledger ledger := by
    simp only [cleanup_old_uploads, Except.ok.injEq] at hrun
    exact hrun.symm
  subst hr
  constructor
  · intro folder t base suffix hmem ht hres
    exact cleanupGo_aged_matched rules d (now - graceDays) vrf ledger ledger folder t
      base suffix hnd hnd hmem ht hres
  · intro folder t hmem ht
    have hyoung : ∀ u, (folder, u) ∈ ledger → ¬(u < now - graceDays) := by
      intro u hu
      have : u = t := dict_value_unique ledger folder u t hnd hu hmem
      exact this ▸ ht
    refine ⟨cleanupGo_preserves_untouched rules d (now - graceDays) vrf ledger ledger
      folder t hmem hyoung, ?_⟩
    exact cleanupGo_no_events rules d (now - graceDays) vrf ledger ledger folder hyoung

theorem cleanup_sweep_grace_and_verification_witness :
    ("/a/x" ∉ dictKeys (⟨[("/a/y", 20)],
        [CEv.verify "/a/x" "d:/r/x" false, CEv.persist [("/a/y", 20)]]⟩ : CleanupResult).ledger)
      ∧ CEv.verify "/a/x" (destinationFor "/a/x" "/a" "d" "/r")
          (verifyNever "/a/x" (destinationFor "/a/x" "/a" "d" "/r"))
          ∈ (⟨[("/a/y", 20)], [CEv.verify "/a/x" "d:/r/x" false,
              CEv.persist [("/a/y", 20)]]⟩ : CleanupResult).trace
      ∧ CEv.deleteLocal "/a/x" ∉ (⟨[("/a/y", 20)], [CEv.verify "/a/x" "d:/r/x" false,
          CEv.persist [("/a/y", 20)]]⟩ : CleanupResult).trace
      ∧ ("/a/y", 20) ∈ (⟨[("/a/y", 20)], [CEv.verify "/a/x" "d:/r/x" false,
          CEv.persist [("/a/y", 20)]]⟩ : CleanupResult).ledger
      ∧ CEv.deleteLocal "/a/y" ∉ (⟨[("/a/y", 20)], [CEv.verify "/a/x" "d:/r/x" false,
          CEv.persist [("/a/y", 20)]]⟩ : CleanupResult).trace := by
  have h := cleanup_sweep_grace_and_verification [("/a", "/r")] "d" [] 7 10 verifyNever
    [("/a/x", 0), ("/a/y", 20)]
    ⟨[("/a/y", 20)], [CEv.verify "/a/x" "d:/r/x" false, CEv.persist [("/a/y", 20)]]⟩
    (by decide) (by decide)
  have ha := h.1 "/a/x" 0 "/a" "/r" (by decide) (by decide) (by decide)
  have hy := h.2 "/a/y" 20 (by decide) (by decide)
  refine ⟨ha.1, ha.2.1, fun hd => ?_, hy.1, hy.2.2⟩
  have := ha.2.2.mp hd
  simp [verifyNever] at this

/-- C1 counterexample: an entry uploaded exactly `graceDays` ago
(`now - uploadedAt = 7 = graceDays`) that matches a mapping rule is NOT
removed by the sweep — the code's strict `upload_time < threshold` keeps
it and does not even verify it, while the claim's `>=` would remove it. -/
theorem cleanup_grace_boundary_counterexample :
    cleanup_old_uploads [("/a", "/r")] ["d"] 7 7 verifyAlways [("/a/x", 0)] =
      .ok ⟨[("/a/x", 0)], []⟩ := by
  decide

theorem attemptsOf_append (t1 t2 : List Ev) :
    attemptsOf (t1 ++ t2) = attemptsOf t1 ++ attemptsOf t2 :=
  List.filterMap_append t1 t2 _

theorem attemptsOf_map_att (l : List Attempt) : attemptsOf (l.map Ev.att) = l := by
  induction l with
  | nil => rfl
  | cons a rest ih =>
    have hstep : attemptsOf (Ev.att a :: rest.map Ev.att) = a :: attemptsOf (rest.map Ev.att) :=
      rfl
    rw [List.map_cons, hstep, ih]

theorem attemptsOf_persist_cons (L : Ledger) (t : List Ev) :
    attemptsOf (Ev.persist L :: t) = attemptsOf t := by
  simp [attemptsOf, List.filterMap_cons]

theorem persist_not_mem_map_att (l : List Attempt) (L : Ledger) :
    Ev.persist L ∉ l.map Ev.att := by
  intro h
  obtain ⟨a, _, hEq⟩ := List.mem_map.mp h
  exact Ev.noConfusion hEq

theorem tryDrives_folder (copy : String → String → Bool) (folder base suffix : String) :
    ∀ (rem : List String) (i : Nat) (a : Attempt),
      a ∈ (tryDrives copy folder base suffix rem i).1 → a.folder = folder
  | [], _, a, h => absurd h (List.not_mem_nil _)
  | d :: rest, i, a, h => by
    by_cases hc : copy folder (destinationFor folder base d suffix) = true
    · simp only [tryDrives, hc, if_true, List.mem_singleton] at h
      rw [h]
    · simp only [tryDrives, hc, Bool.false_eq_true, if_false, List.mem_cons] at h
      rcases h with h | h
      · rw [h]
      · exact tryDrives_folder copy folder base suffix rest (i + 1) a h

theorem tryDrives_none_fail (copy : String → String → Bool) (folder base suffix : String) :
    ∀ (rem : List String) (i : Nat),
      (tryDrives copy folder base suffix rem i).2 = none →
      ∀ a ∈ (tryDrives copy folder base suffix rem i).1, copy a.folder a.dest = false
  | [], _, _, a, ha => absurd ha (List.not_mem_nil _)
  | d :: rest, i, h, a, ha => by
    by_cases hc : copy folder (destinationFor folder base d suffix) = true
    · simp [tryDrives, hc] at h
    · simp only [tryDrives, hc, Bool.false_eq_true, if_false, List.mem_cons] at h ha
      rcases ha with rfl | ha
      · simpa using hc
      · exact tryDrives_none_fail copy folder base suffix rest (i + 1) h a ha

theorem tryDrives_some (copy : String → String → Bool) (folder base suffix : String) :
    ∀ (rem : List String) (i j : Nat),
      (tryDrives copy folder base suffix rem i).2 = some j →
      ∃ pre a, (tryDrives copy folder base suffix rem i).1 = pre ++ [a]
        ∧ (∀ b ∈ pre, copy b.folder b.dest = false)
        ∧ copy a.folder a.dest = true ∧ a.idx = j ∧ a.folder = folder
  | [], i, j, h => by simp [tryDrives] at h
  | d :: rest, i, j, h => by
    by_cases hc : copy folder (destinationFor folder base d suffix) = true
    · simp only [tryDrives, hc, if_true, Option.some.injEq] at h ⊢
      subst h
      exact ⟨[], ⟨folder, destinationFor folder base d suffix, d, i⟩, by simp,
        by simp, hc, rfl, rfl⟩
    · simp only [tryDrives, hc, Bool.false_eq_true, if_false] at h ⊢
      obtain ⟨pre, a, h1, h2, h3, h4, h5⟩ :=
        tryDrives_some copy folder base suffix rest (i + 1) j h
      refine ⟨⟨folder, destinationFor folder base d suffix, d, i⟩ :: pre, a, ?_, ?_, h3, h4, h5⟩
      · rw [List.cons_append, h1]
      · intro b hb
        rcases List.mem_cons.mp hb with rfl | hb
        · simpa using hc
        · exact h2 b hb

theorem tryDrives_chain (copy : String → String → Bool) (folder base suffix : String) :
    ∀ (rem : List String) (i : Nat),
      List.Chain' (stepR copy) (tryDrives copy folder base suffix rem i).1
        ∧ (∀ a, ((tryDrives copy folder base suffix rem i).1).head? = some a → a.idx = i)
  | [], i => ⟨List.chain'_nil, fun a ha => by simp [tryDrives] at ha⟩
  | d :: rest, i => by
    by_cases hc : copy folder (destinationFor folder base d suffix) = true
    · constructor
      · simp [tryDrives, hc]
      · intro a ha
        simp only [tryDrives, hc, if_true, List.head?_cons, Option.some.injEq] at ha
        rw [← ha]
    · have ih := tryDrives_chain copy folder base suffix rest (i + 1)
      constructor
      · simp only [tryDrives, hc, Bool.false_eq_true, if_false]
        apply List.chain'_cons'.mpr
        refine ⟨?_, ih.1⟩
        intro b hb
        have hbi : b.idx = i + 1 := ih.2 b hb
        show b.idx = if copy folder (destinationFor folder base d suffix) then i else i + 1
        simp only [hc, Bool.false_eq_true, if_false]
        exact hbi
      · intro a ha
        simp only [tryDrives, hc, Bool.false_eq_true, if_false, List.head?_cons,
          Option.some.injEq] at ha
        rw [← ha]

theorem uploadGo_chain (copy : String → String → Bool) (rules : List (String × String))
    (drives : List String) (now : Int) :
    ∀ (sel : List String) (idx : Nat) (mem : Ledger) (r : RunResult),
      uploadGo copy rules drives now sel idx mem = .ok r →
      List.Chain' (stepR copy) (attemptsOf r.trace)
        ∧ (∀ a, (attemptsOf r.trace).head? = some a → a.idx = idx)
  | [], idx, mem, r, h => by
    simp only [uploadGo, Except.ok.injEq] at h
    rw [← h]
    exact ⟨List.chain'_nil, fun a ha => by simp [attemptsOf] at ha⟩
  | folder :: rest, idx, mem, r, h => by
    cases hres : resolveRule rules folder with
    | none =>
      simp only [uploadGo, hres] at h
      exact uploadGo_chain copy rules drives now rest idx mem r h
    | some bs =>
      obtain ⟨base, suffix⟩ := bs
      cases hget : drives.get? idx with
      | none =>
        simp only [uploadGo, hres, hget] at h
        exact Except.noConfusion h
      | some d0 =>
        cases ht2 : (tryDrives copy folder base suffix (drives.drop idx) idx).2 with
        | none =>
          simp only [uploadGo, hres, hget, ht2, Except.ok.injEq] at h
          rw [← h]
          have htd := tryDrives_chain copy folder base suffix (drives.drop idx) idx
          constructor
          · show List.Chain' (stepR copy)
              (attemptsOf ((tryDrives copy folder base suffix (drives.drop idx) idx).1.map
                Ev.att))
            rw [attemptsOf_map_att]
            exact htd.1
          · intro a ha
            rw [show (RunResult.trace ⟨(tryDrives copy folder base suffix
                (drives.drop idx) idx).1.map Ev.att, drives.length, mem, some folder⟩) =
                (tryDrives copy folder base suffix (drives.drop idx) idx).1.map Ev.att
                from rfl, attemptsOf_map_att] at ha
            exact htd.2 a ha
        | some j =>
          cases hrec : uploadGo copy rules drives now rest j (dictInsert mem folder now) with
          | error e =>
            simp only [uploadGo, hres, hget, ht2, hrec] at h
            exact Except.noConfusion h
          | ok r' =>
            simp only [uploadGo, hres, hget, ht2, hrec, Except.ok.injEq] at h
            have ih := uploadGo_chain copy rules drives now rest j
              (dictInsert mem folder now) r' hrec
            have htd := tryDrives_chain copy folder base suffix (drives.drop idx) idx
            obtain ⟨pre, a, h1, h2, h3, h4, h5⟩ :=
              tryDrives_some copy folder base suffix (drives.drop idx) idx j ht2
            rw [← h]
            have htr : attemptsOf ((tryDrives copy folder base suffix
                (drives.drop idx) idx).1.map Ev.att ++
                (Ev.persist (dictInsert mem folder now) :: r'.trace)) =
                (tryDrives copy folder base suffix (drives.drop idx) idx).1 ++
                  attemptsOf r'.trace := by
              rw [attemptsOf_append, attemptsOf_map_att, attemptsOf_persist_cons]
            constructor
            · show List.Chain' (stepR copy) (attemptsOf ((tryDrives copy folder base suffix
                (drives.drop idx) idx).1.map Ev.att ++
                (Ev.persist (dictInsert mem folder now) :: r'.trace)))
              rw [htr]
              apply List.chain'_append.mpr
              refine ⟨htd.1, ih.1, ?_⟩
              intro x hx y hy
              rw [h1, List.getLast?_concat] at hx
              have hxa : a = x := by simpa using hx
              have hyj : y.idx = j := ih.2 y hy
              rw [← hxa]
              show y.idx = if copy a.folder a.dest then a.idx else a.idx + 1
              rw [if_pos h3, h4]
              exact hyj
            · intro a0 ha0
              rw [show (RunResult.trace ⟨(tryDrives copy folder base suffix
                  (drives.drop idx) idx).1.map Ev.att ++
                  (Ev.persist (dictInsert mem folder now) :: r'.trace), r'.finalIdx,
                  r'.mem, r'.abortedAt⟩) =
                  (tryDrives copy folder base suffix (drives.drop idx) idx).1.map Ev.att ++
                  (Ev.persist (dictInsert mem folder now) :: r'.trace) from rfl, htr] at ha0
              cases hatts : (tryDrives copy folder base suffix (drives.drop idx) idx).1 with
              | nil => exact absurd hatts (by rw [h1]; simp)
              | cons a1 asr =>
                rw [hatts, List.cons_append, List.head?_cons, Option.some.injEq] at ha0
                rw [← ha0]
                exact htd.2 a1 (by rw [hatts]; rfl)

/-- C3: across one run of `upload_folders` the drive index of consecutive
copy attempts satisfies exactly the coordinator's step law: after a
successful attempt the next attempt (the next folder's first) uses the
same index, after a failed attempt the next uses the index plus one; the
first attempt of the run uses index 0; hence the index sequence is
monotonically non-decreasing and is never reset between folders. -/
theorem upload_drive_index_chain (copy : String → String → Bool)
    (rules : List (String × String)) (drives : List String) (now : Int)
    (selected : List String) (mem0 : Ledger) (r : RunResult)
    (h : upload_folders copy rules drives now selected mem0 = .ok r) :
    List.Chain' (stepR copy) (attemptsOf r.trace)
      ∧ (∀ a, (attemptsOf r.trace).head? = some a → a.idx = 0)
      ∧ List.Chain' (fun a b : Attempt => a.idx ≤ b.idx) (attemptsOf r.trace) := by
  have hh := uploadGo_chain copy rules drives now selected 0 mem0 r h
  refine ⟨hh.1, hh.2, ?_⟩
  refine List.Chain'.imp ?_ hh.1
  intro a b hab
  rw [show stepR copy a b = (b.idx = if copy a.folder a.dest then a.idx else a.idx + 1)
    from rfl] at hab
  by_cases hc : copy a.folder a.dest = true
  · rw [if_pos hc] at hab
    omega
  · simp only [Bool.not_eq_true] at hc
    rw [hc] at hab
    simp only [Bool.false_eq_true, if_false] at hab
    omega

theorem upload_drive_index_chain_witness :
    List.Chain' (stepR copyOnD2)
        (attemptsOf [Ev.att ⟨"/a/x", "d1:/r/x", "d1", 0⟩, Ev.att ⟨"/a/x", "d2:/r/x", "d2", 1⟩,
          Ev.persist [("/a/x", 5)], Ev.att ⟨"/a/y", "d2:/r/y", "d2", 1⟩,
          Ev.persist [("/a/x", 5), ("/a/y", 5)]])
      ∧ Attempt.idx ⟨"/a/x", "d1:/r/x", "d1", 0⟩ = 0
      ∧ List.Chain' (fun a b : Attempt => a.idx ≤ b.idx)
        (attemptsOf [Ev.att ⟨"/a/x", "d1:/r/x", "d1", 0⟩, Ev.att ⟨"/a/x", "d2:/r/x", "d2", 1⟩,
          Ev.persist [("/a/x", 5)], Ev.att ⟨"/a/y", "d2:/r/y", "d2", 1⟩,
          Ev.persist [("/a/x", 5), ("/a/y", 5)]]) := by
  have h := upload_drive_index_chain copyOnD2 [("/a", "/r")] ["d1", "d2"] 5
    ["/a/x", "/a/y"] []
    ⟨[Ev.att ⟨"/a/x", "d1:/r/x", "d1", 0⟩, Ev.att ⟨"/a/x", "d2:/r/x", "d2", 1⟩,
      Ev.persist [("/a/x", 5)], Ev.att ⟨"/a/y", "d2:/r/y", "d2", 1⟩,
      Ev.persist [("/a/x", 5), ("/a/y", 5)]], 1, [("/a/x", 5), ("/a/y", 5)], none⟩
    (by decide)
  exact ⟨h.1, h.2.1 _ (by decide), h.2.2⟩

theorem uploadGo_abort (copy : String → String → Bool) (rules : List (String × String))
    (drives : List String) (now : Int) :
    ∀ (sel : List String) (idx : Nat) (mem : Ledger) (r : RunResult) (f : String),
      uploadGo copy rules drives now sel idx mem = .ok r → r.abortedAt = some f →
      ∃ pre post, sel = pre ++ f :: post
        ∧ (∀ k, k ∈ dictKeys r.mem → k ∈ dictKeys mem ∨ k ∈ pre)
        ∧ (∀ L, Ev.persist L ∈ r.trace → ∀ k, k ∈ dictKeys L → k ∈ dictKeys mem ∨ k ∈ pre)
        ∧ (∀ a, a ∈ attemptsOf r.trace → a.folder ∈ pre ∨ a.folder = f)
  | [], idx, mem, r, f, h, hab => by
    simp only [uploadGo, Except.ok.injEq] at h
    rw [← h] at hab
    exact Option.noConfusion hab
  | folder :: rest, idx, mem, r, f, h, hab => by
    cases hres : resolveRule rules folder with
    | none =>
      simp only [uploadGo, hres] at h
      obtain ⟨pre, post, h1, h2, h3, h4⟩ :=
        uploadGo_abort copy rules drives now rest idx mem r f h hab
      refine ⟨folder :: pre, post, by rw [h1]; rfl, ?_, ?_, ?_⟩
      · exact fun k hk => (h2 k hk).imp id (List.mem_cons_of_mem _)
      · exact fun L hL k hk => (h3 L hL k hk).imp id (List.mem_cons_of_mem _)
      · exact fun a ha => (h4 a ha).imp (List.mem_cons_of_mem _) id
    | some bs =>
      obtain ⟨base, suffix⟩ := bs
      cases hget : drives.get? idx with
      | none =>
        simp only [uploadGo, hres, hget] at h
        exact Except.noConfusion h
      | some d0 =>
        cases ht2 : (tryDrives copy folder base suffix (drives.drop idx) idx).2 with
        | none =>
          simp only [uploadGo, hres, hget, ht2, Except.ok.injEq] at h
          have hf : folder = f := by
            rw [← h] at hab
            simpa using hab
          subst hf
          refine ⟨[], rest, by simp, ?_, ?_, ?_⟩
          · intro k hk
            rw [← h] at hk
            exact Or.inl hk
          · intro L hL
            rw [← h] at hL
            exact absurd hL (persist_not_mem_map_att _ L)
          · intro a ha
            rw [← h] at ha
            rw [show (RunResult.trace ⟨(tryDrives copy folder base suffix
                (drives.drop idx) idx).1.map Ev.att, drives.length, mem, some folder⟩) =
                (tryDrives copy folder base suffix (drives.drop idx) idx).1.map Ev.att
                from rfl, attemptsOf_map_att] at ha
            exact Or.inr (tryDrives_folder copy folder base suffix _ idx a ha)
        | some j =>
          cases hrec : uploadGo copy rules drives now rest j (dictInsert mem folder now) with
          | error e =>
            simp only [uploadGo, hres, hget, ht2, hrec] at h
            exact Except.noConfusion h
          | ok r' =>
            simp only [uploadGo, hres, hget, ht2, hrec, Except.ok.injEq] at h
            have hab' : r'.abortedAt = some f := by
              rw [← h] at hab
              simpa using hab
            obtain ⟨pre, post, h1, h2, h3, h4⟩ :=
              uploadGo_abort copy rules drives now rest j (dictInsert mem folder now)
                r' f hrec hab'
            refine ⟨folder :: pre, post, by rw [h1]; rfl, ?_, ?_, ?_⟩
            · intro k hk
              rw [← h] at hk
              rcases h2 k hk with hk' | hk'
              · rcases mem_dictKeys_dictInsert mem k folder now hk' with hm | hm
                · exact Or.inl hm
                · exact Or.inr (hm ▸ List.mem_cons_self _ _)
              · exact Or.inr (List.mem_cons_of_mem _ hk')
            · intro L hL k hk
              rw [← h] at hL
              rcases List.mem_append.mp hL with hL' | hL'
              · exact absurd hL' (persist_not_mem_map_att _ L)
              · rcases List.mem_cons.mp hL' with hL'' | hL''
                · have hLL : L = dictInsert mem folder now := (Ev.persist.injEq .. ▸ hL'')
                  rw [hLL] at hk
                  rcases mem_dictKeys_dictInsert mem k folder now hk with hm | hm
                  · exact Or.inl hm
                  · exact Or.inr (hm ▸ List.mem_cons_self _ _)
                · rcases h3 L hL'' k hk with hm | hm
                  · rcases mem_dictKeys_dictInsert mem k folder now hm with hm' | hm'
                    · exact Or.inl hm'
                    · exact Or.inr (hm' ▸ List.mem_cons_self _ _)
                  · exact Or.inr (List.mem_cons_of_mem _ hm)
            · intro a ha
              rw [← h] at ha
              rw [show (RunResult.trace ⟨(tryDrives copy folder base suffix
                  (drives.drop idx) idx).1.map Ev.att ++
                  (Ev.persist (dictInsert mem folder now) :: r'.trace), r'.finalIdx,
                  r'.mem, r'.abortedAt⟩) =
                  (tryDrives copy folder base suffix (drives.drop idx) idx).1.map Ev.att ++
                  (Ev.persist (dictInsert mem folder now) :: r'.trace) from rfl,
                attemptsOf_append, attemptsOf_map_att, attemptsOf_persist_cons] at ha
              rcases List.mem_append.mp ha with ha' | ha'
              · refine Or.inl ?_
                rw [tryDrives_folder copy folder base suffix _ idx a ha']
                exact List.mem_cons_self _ _
              · rcases h4 a ha' with hm | hm
                · exact Or.inl (List.mem_cons_of_mem _ hm)
                · exact Or.inr hm

/-- C2: when a run of `upload_folders` aborts because the drive index
advanced past the last drive while uploading folder `f` (duplicate-free
selection, `f` not already in the loaded ledger), the selection splits as
`pre ++ f :: post` with: no ledger entry for `f` in the final in-memory
ledger nor in any persisted snapshot, no copy attempt for any folder of
`post`, and neither the final nor any persisted ledger contains any
not-previously-present folder of `post` — the run stops with the aborted
and unprocessed folders unrecorded. -/
theorem upload_abort_on_drive_exhaustion (copy : String → String → Bool)
    (rules : List (String × String)) (drives : List String) (now : Int)
    (selected : List String) (mem0 : Ledger) (r : RunResult) (f : String)
    (h : upload_folders copy rules drives now selected mem0 = .ok r)
    (hab : r.abortedAt = some f) (hnd : selected.Nodup) (hf0 : f ∉ dictKeys mem0) :
    ∃ pre post, selected = pre ++ f :: post
      ∧ f ∉ dictKeys r.mem
      ∧ (∀ L, Ev.persist L ∈ r.trace → f ∉ dictKeys L)
      ∧ (∀ g, g ∈ post → ∀ a, a ∈ attemptsOf r.trace → a.folder ≠ g)
      ∧ (∀ g, g ∈ post → g ∉ dictKeys mem0 →
          g ∉ dictKeys r.mem ∧ ∀ L, Ev.persist L ∈ r.trace → g ∉ dictKeys L) := by
  obtain ⟨pre, post, h1, h2, h3, h4⟩ :=
    uploadGo_abort copy rules drives now selected 0 mem0 r f h hab
  subst h1
  obtain ⟨hndpre, hndrest, hdisj⟩ := List.nodup_append.mp hnd
  have hfpre : f ∉ pre := fun hf => hdisj hf (List.mem_cons_self _ _)
  have hpost_pre : ∀ g ∈ post, g ∉ pre ∧ g ≠ f := by
    intro g hg
    constructor
    · exact fun hgp => hdisj hgp (List.mem_cons_of_mem _ hg)
    · intro hgf
      obtain ⟨hfnot, _⟩ := List.nodup_cons.mp hndrest
      exact hfnot (hgf ▸ hg)
  refine ⟨pre, post, rfl, ?_, ?_, ?_, ?_⟩
  · intro hf
    rcases h2 f hf with hm | hm
    · exact hf0 hm
    · exact hfpre hm
  · intro L hL hf
    rcases h3 L hL f hf with hm | hm
    · exact hf0 hm
    · exact hfpre hm
  · intro g hg a ha heq
    rcases h4 a ha with hm | hm
    · exact (hpost_pre g hg).1 (heq ▸ hm)
    · exact (hpost_pre g hg).2 (heq ▸ hm)
  · intro g hg hg0
    constructor
    · intro hgm
      rcases h2 g hgm with hm | hm
      · exact hg0 hm
      · exact (hpost_pre g hg).1 hm
    · intro L hL hgm
      rcases h3 L hL g hgm with hm | hm
      · exact hg0 hm
      · exact (hpost_pre g hg).1 hm

theorem upload_abort_on_drive_exhaustion_witness :
    "/a/x" ∉ dictKeys ([] : Ledger)
      ∧ Attempt.folder ⟨"/a/x", "d1:/r/x", "d1", 0⟩ ≠ "/a/y" := by
  obtain ⟨pre, post, h1, h2, h3, h4, h5⟩ := upload_abort_on_drive_exhaustion copyNever
    [("/a", "/r")] ["d1"] 5 ["/a/x", "/a/y"] []
    ⟨[Ev.att ⟨"/a/x", "d1:/r/x", "d1", 0⟩], 1, [], some "/a/x"⟩ "/a/x"
    (by decide) (by decide) (by decide) (by decide)
  have hsplit : pre = [] ∧ post = ["/a/y"] := by
    cases pre with
    | nil =>
      refine ⟨rfl, ?_⟩
      rw [List.nil_append] at h1
      have := (List.cons.injEq .. ▸ h1).2
      exact this.symm
    | cons p ps =>
      exfalso
      cases ps with
      | nil =>
        rw [List.cons_append, List.nil_append] at h1
        have h1b := (List.cons.injEq .. ▸ h1).2
        have := (List.cons.injEq .. ▸ h1b).1
        exact absurd this (by decide)
      | cons q qs =>
        have := congrArg List.length h1
        simp [List.length_append] at this
  obtain ⟨hp, hq⟩ := hsplit
  subst hp
  subst hq
  exact ⟨h2, h4 "/a/y" (List.mem_cons_self _ _) _ (by decide)⟩

theorem immediatePersist_append (copy : String → String → Bool) (now : Int)
    {t1 t2 : List Ev} (h1 : immediatePersist copy now t1)
    (h2 : immediatePersist copy now t2) : immediatePersist copy now (t1 ++ t2) := by
  intro i a ha hc
  by_cases hi : i < t1.length
  · rw [List.getElem?_append_left hi] at ha
    obtain ⟨L, hL, hl⟩ := h1 i a ha hc
    have hi1 : i + 1 < t1.length := by
      by_contra hcon
      rw [List.getElem?_eq_none (by omega)] at hL
      exact Option.noConfusion hL
    rw [List.getElem?_append_left hi1]
    exact ⟨L, hL, hl⟩
  · push_neg at hi
    rw [List.getElem?_append_right hi] at ha
    obtain ⟨L, hL, hl⟩ := h2 (i - t1.length) a ha hc
    have hi1 : t1.length ≤ i + 1 := le_trans hi (Nat.le_succ i)
    rw [List.getElem?_append_right hi1]
    have heq : i + 1 - t1.length = (i - t1.length) + 1 := by omega
    rw [heq]
    exact ⟨L, hL, hl⟩

theorem immediatePersist_allFail (copy : String → String → Bool) (now : Int)
    (atts : List Attempt) (hfail : ∀ a ∈ atts, copy a.folder a.dest = false) :
    immediatePersist copy now (atts.map Ev.att) := by
  intro i a ha hc
  exfalso
  rw [List.getElem?_map] at ha
  cases hai : atts[i]? with
  | none => rw [hai] at ha; exact Option.noConfusion ha
  | some b =>
    rw [hai] at ha
    have hba : b = a := by
      have := Option.some.injEq .. ▸ ha
      exact Ev.att.injEq .. ▸ this
    have hmem : b ∈ atts := List.getElem?_mem hai
    rw [hba] at hmem
    rw [hfail a hmem] at hc
    exact Bool.noConfusion hc

theorem immediatePersist_pair (copy : String → String → Bool) (now : Int)
    (a : Attempt) (L : Ledger) (_hc : copy a.folder a.dest = true)
    (hl : dictLookup L a.folder = some now) :
    immediatePersist copy now [Ev.att a, Ev.persist L] := by
  intro i b hb hcb
  rcases i with _ | _ | n
  · have hba : a = b := by
      have h0 : some (Ev.att a) = some (Ev.att b) := hb
      have := Option.some.injEq .. ▸ h0
      exact Ev.att.injEq .. ▸ this
    refine ⟨L, rfl, ?_⟩
    rw [← hba]
    exact hl
  · exfalso
    have h0 : some (Ev.persist L) = some (Ev.att b) := hb
    have := Option.some.injEq .. ▸ h0
    exact Ev.noConfusion this
  · exfalso
    have h0 : (none : Option Ev) = some (Ev.att b) := hb
    exact Option.noConfusion h0

theorem uploadGo_immediatePersist (copy : String → String → Bool)
    (rules : List (String × String)) (drives : List String) (now : Int) :
    ∀ (sel : List String) (idx : Nat) (mem : Ledger) (r : RunResult),
      uploadGo copy rules drives now sel idx mem = .ok r →
      immediatePersist copy now r.trace
  | [], idx, mem, r, h => by
    simp only [uploadGo, Except.ok.injEq] at h
    rw [← h]
    intro i a ha
    exfalso
    have h0 : (none : Option Ev) = some (Ev.att a) := ha
    exact Option.noConfusion h0
  | folder :: rest, idx, mem, r, h => by
    cases hres : resolveRule rules folder with
    | none =>
      simp only [uploadGo, hres] at h
      exact uploadGo_immediatePersist copy rules drives now rest idx mem r h
    | some bs =>
      obtain ⟨base, suffix⟩ := bs
      cases hget : drives.get? idx with
      | none =>
        simp only [uploadGo, hres, hget] at h
        exact Except.noConfusion h
      | some d0 =>
        cases ht2 : (tryDrives copy folder base suffix (drives.drop idx) idx).2 with
        | none =>
          simp only [uploadGo, hres, hget, ht2, Except.ok.injEq] at h
          rw [← h]
          exact immediatePersist_allFail copy now _
            (tryDrives_none_fail copy folder base suffix _ idx ht2)
        | some j =>
          cases hrec : uploadGo copy rules drives now rest j (dictInsert mem folder now) with
          | error e =>
            simp only [uploadGo, hres, hget, ht2, hrec] at h
            exact Except.noConfusion h
          | ok r' =>
            simp only [uploadGo, hres, hget, ht2, hrec, Except.ok.injEq] at h
            rw [← h]
            have ih := uploadGo_immediatePersist copy rules drives now rest j
              (dictInsert mem folder now) r' hrec
            obtain ⟨pre, a, h1, h2, h3, h4, h5⟩ :=
              tryDrives_some copy folder base suffix (drives.drop idx) idx j ht2
            show immediatePersist copy now
              ((tryDrives copy folder base suffix (drives.drop idx) idx).1.map Ev.att ++
                (Ev.persist (dictInsert mem folder now) :: r'.trace))
            have hre : (tryDrives copy folder base suffix (drives.drop idx) idx).1.map
                Ev.att ++ (Ev.persist (dictInsert mem folder now) :: r'.trace) =
                (pre.map Ev.att ++ [Ev.att a, Ev.persist (dictInsert mem folder now)]) ++
                  r'.trace := by
              rw [h1, List.map_append]
              simp
            rw [hre]
            apply immediatePersist_append
            · apply immediatePersist_append
              · exact immediatePersist_allFail copy now pre h2
              · refine immediatePersist_pair copy now a _ h3 ?_
                rw [h5]
                exact dictLookup_dictInsert_self mem folder now
            · exact ih

/-- C4: in every run of `upload_folders`, a successful copy attempt at
trace position `i` is immediately followed, at position `i + 1`, by a
`write_wait_cleanup` persistence of a ledger that maps the uploaded
folder to the current timestamp — so the write happens before any later
event, in particular before any later folder's copy attempt; ledger
updates are never batched to the end of the run, and a crash after any
single success finds that success already on disk. -/
theorem upload_persists_immediately_after_success (copy : String → String → Bool)
    (rules : List (String × String)) (drives : List String) (now : Int)
    (selected : List String) (mem0 : Ledger) (r : RunResult)
    (h : upload_folders copy rules drives now selected mem0 = .ok r) :
    immediatePersist copy now r.trace :=
  uploadGo_immediatePersist copy rules drives now selected 0 mem0 r h

theorem upload_persists_immediately_after_success_witness :
    [Ev.att ⟨"/a/x", "d1:/r/x", "d1", 0⟩, Ev.att ⟨"/a/x", "d2:/r/x", "d2", 1⟩,
        Ev.persist [("/a/x", 5)], Ev.att ⟨"/a/y", "d2:/r/y", "d2", 1⟩,
        Ev.persist [("/a/x", 5), ("/a/y", 5)]][2]? = some (Ev.persist [("/a/x", 5)])
      ∧ dictLookup [("/a/x", (5 : Int))] "/a/x" = some 5 := by
  have h := upload_persists_immediately_after_success copyOnD2 [("/a", "/r")] ["d1", "d2"]
    5 ["/a/x", "/a/y"] []
    ⟨[Ev.att ⟨"/a/x", "d1:/r/x", "d1", 0⟩, Ev.att ⟨"/a/x", "d2:/r/x", "d2", 1⟩,
      Ev.persist [("/a/x", 5)], Ev.att ⟨"/a/y", "d2:/r/y", "d2", 1⟩,
      Ev.persist [("/a/x", 5), ("/a/y", 5)]], 1, [("/a/x", 5), ("/a/y", 5)], none⟩
    (by decide)
  obtain ⟨L, hL, hl⟩ := h 1 ⟨"/a/x", "d2:/r/x", "d2", 1⟩ (by decide) (by decide)
  have hpin : [Ev.att ⟨"/a/x", "d1:/r/x", "d1", 0⟩, Ev.att ⟨"/a/x", "d2:/r/x", "d2", 1⟩,
      Ev.persist [("/a/x", 5)], Ev.att ⟨"/a/y", "d2:/r/y", "d2", 1⟩,
      Ev.persist [("/a/x", 5), ("/a/y", 5)]][2]? = some (Ev.persist [("/a/x", 5)]) := by
    decide
  have h12 := hL.symm.trans hpin
  have hsome := Option.some.injEq .. ▸ h12
  have hLeq : L = [("/a/x", (5 : Int))] := Ev.persist.injEq .. ▸ hsome
  rw [hLeq] at hl
  exact ⟨hpin, hl⟩

theorem midRMW_of_rw : ∀ (l : List LockEv),
    (∀ e ∈ l, e = LockEv.readL ∨ e = LockEv.writeL) →
    midRMW (l ++ [LockEv.rel]) = true
  | [], _ => rfl
  | e :: rest, h => by
    have htail := midRMW_of_rw rest (fun x hx => h x (List.mem_cons_of_mem _ hx))
    rcases h e (List.mem_cons_self _ _) with rfl | rfl
    · show midRMW (LockEv.readL :: (rest ++ [LockEv.rel])) = true
      rw [show midRMW (LockEv.readL :: (rest ++ [LockEv.rel])) =
        midRMW (rest ++ [LockEv.rel]) from rfl]
      exact htail
    · show midRMW (LockEv.writeL :: (rest ++ [LockEv.rel])) = true
      rw [show midRMW (LockEv.writeL :: (rest ++ [LockEv.rel])) =
        midRMW (rest ++ [LockEv.rel]) from rfl]
      exact htail

theorem cEvLock_rw (t : List CEv) (e : LockEv) (he : e ∈ (t.map cEvLock).flatten) :
    e = LockEv.writeL := by
  rw [List.mem_flatten] at he
  obtain ⟨s, hs, hes⟩ := he
  obtain ⟨c, _, hcs⟩ := List.mem_map.mp hs
  rw [← hcs] at hes
  cases c with
  | verify f r ok => exact absurd hes (List.not_mem_nil _)
  | deleteLocal f => exact absurd hes (List.not_mem_nil _)
  | persist L =>
    have hes' : e ∈ [LockEv.writeL] := hes
    simpa using hes'

theorem evLock_flatten (t : List Ev) :
    (t.map evLock).flatten = (List.replicate (persistCount t) writeLockTrace).flatten := by
  induction t with
  | nil => rfl
  | cons e rest ih =>
    cases e with
    | att a =>
      show [] ++ (rest.map evLock).flatten = _
      rw [List.nil_append, ih]
      rfl
    | persist L =>
      show writeLockTrace ++ (rest.map evLock).flatten = _
      rw [ih]
      rw [show persistCount (Ev.persist L :: rest) = persistCount rest + 1 from rfl,
        List.replicate_succ, List.flatten_cons]

theorem acquireRetry_succeeds (avail : Nat → Bool) :
    ∀ (fuel k0 j : Nat), j < fuel → avail (k0 + j) = true →
      acquireRetry avail fuel k0 ≠ none
  | 0, _, j, hj, _ => absurd hj (Nat.not_lt_zero j)
  | fuel + 1, k0, j, hj, hav => by
    by_cases h0 : avail k0 = true
    · simp [acquireRetry, h0]
    · simp only [Bool.not_eq_true] at h0
      simp only [acquireRetry, h0, Bool.false_eq_true, if_false]
      have hj0 : j ≠ 0 := by
        intro he
        rw [he, Nat.add_zero] at hav
        rw [h0] at hav
        exact Bool.noConfusion hav
      obtain ⟨j', rfl⟩ := Nat.exists_eq_succ_of_ne_zero hj0
      exact acquireRetry_succeeds avail fuel (k0 + 1) j' (by omega)
        (by rw [show k0 + 1 + j' = k0 + (j' + 1) from by omega]; exact hav)

/-- C7 (amended): the cleanup run's whole read-modify-write sequence
(load, mutate per entry, save per entry) runs inside one continuous
exclusive lock acquisition on the ledger's lock file, released on every
exit path including the `IndexError` path, and its acquisition loop
retries until the lock becomes free instead of failing; the upload run,
by contrast, takes one scoped acquisition around its initial load and
one around each per-success write — each ledger operation individually
lock-protected, but the lock is NOT held across the whole
read-modify-write sequence. -/
theorem ledger_lock_discipline :
    (∀ (rules : List (String × String)) (drives : List String) (graceDays now : Int)
        (vrf : String → String → Bool) (ledger : Ledger),
        continuousRMW (cleanupLockTrace
          (cleanup_old_uploads rules drives graceDays now vrf ledger)) = true)
      ∧ (∀ t : List Ev, uploadLockTrace t =
          loadLockTrace ++ (List.replicate (persistCount t) writeLockTrace).flatten)
      ∧ continuousRMW loadLockTrace = true
      ∧ continuousRMW writeLockTrace = true
      ∧ (∀ (avail : Nat → Bool) (k : Nat), avail k = true →
          acquireRetry avail (k + 1) 0 ≠ none) := by
  refine ⟨?_, ?_, rfl, rfl, ?_⟩
  · intro rules drives graceDays now vrf ledger
    cases drives with
    | nil => rfl
    | cons d ds =>
      show continuousRMW (LockEv.acq :: LockEv.readL ::
        (((cleanupGo rules d (now - graceDays) vrf ledger ledger).trace.map
          cEvLock).flatten ++ [LockEv.rel])) = true
      rw [show continuousRMW (LockEv.acq :: LockEv.readL ::
        (((cleanupGo rules d (now - graceDays) vrf ledger ledger).trace.map
          cEvLock).flatten ++ [LockEv.rel])) =
        midRMW ((((cleanupGo rules d (now - graceDays) vrf ledger ledger).trace.map
          cEvLock).flatten ++ [LockEv.rel])) from rfl]
      exact midRMW_of_rw _ (fun e he => Or.inr (cEvLock_rw _ e he))
  · intro t
    unfold uploadLockTrace
    rw [evLock_flatten]
  · exact fun avail k hav =>
      acquireRetry_succeeds avail (k + 1) 0 k (Nat.lt_succ_self k) (by simpa using hav)

theorem ledger_lock_discipline_witness :
    continuousRMW (cleanupLockTrace (cleanup_old_uploads [("/a", "/r")] ["d"] 7 10
        verifyAlways [("/a/x", 0)])) = true
      ∧ uploadLockTrace [Ev.att ⟨"/a/x", "d1:/r/x", "d1", 0⟩, Ev.persist [("/a/x", 5)]] =
          loadLockTrace ++ (List.replicate (persistCount [Ev.att ⟨"/a/x", "d1:/r/x", "d1", 0⟩,
            Ev.persist [("/a/x", 5)]]) writeLockTrace).flatten
      ∧ acquireRetry availAt3 4 0 ≠ none :=
  ⟨ledger_lock_discipline.1 [("/a", "/r")] ["d"] 7 10 verifyAlways [("/a/x", 0)],
   ledger_lock_discipline.2.1 _,
   ledger_lock_discipline.2.2.2.2 availAt3 3 (by decide)⟩

/-- C7 counterexample: an upload run with a single successful folder
performs its read-modify-write as two separate lock acquisitions — one
scoped around the initial `load_wait_cleanup()` (line 113) and another
around the per-success `write_wait_cleanup` (line 131) — with the lock
released in between, so the upload run's sequence is not one continuous
exclusive critical section as the claim requires. -/
theorem upload_lock_not_continuous :
    upload_folders copyAlways [("/a", "/r")] ["d1"] 5 ["/a/x"] [] =
      .ok ⟨[Ev.att ⟨"/a/x", "d1:/r/x", "d1", 0⟩, Ev.persist [("/a/x", 5)]], 0,
        [("/a/x", 5)], none⟩
      ∧ continuousRMW (uploadLockTrace [Ev.att ⟨"/a/x", "d1:/r/x", "d1", 0⟩,
          Ev.persist [("/a/x", 5)]]) = false := by
  decide
